import Mathlib

/-!
Shallow embedding of `src/jl.c` (a streaming JSON-to-table extractor).

The C program is single-threaded and pull-driven, so its state threads
directly through pure functions:
  * the character source becomes a `List Char` (the C `read_char` returns
    the NUL sentinel at end of stream; `[]` plays that role, and a literal
    NUL byte in the list is treated exactly as the C code treats it);
  * the lexer becomes functions from `List Char` to tokens plus the rest
    of the stream; the single-character pushback of `unread_char` is
    modelled by consing the character back on;
  * tables become a list of `Table` records (the registry order of
    `tables.t`), the operator tree an inductive `Op` whose table pointers
    are registry indices;
  * every loop or recursion of the C runtime is given an explicit fuel
    argument; `none` models the process dying (`die`/missing fuel), and
    `some` a completed computation.
-/

/-- Token kinds of the lexer (`TokenType` in jl.c). -/
inductive TokenType where
  | beginObject
  | endObject
  | pairSep
  | memberSep
  | beginArray
  | endArray
  | string
  | number
  | bool
  | null
  | eof
deriving DecidableEq, Repr

/-- A lexer token (`Token` in jl.c): a kind plus the lexeme text. -/
structure Token where
  type : TokenType
  text : String
deriving DecidableEq, Repr

/-- `Table` in jl.c: a fixed column count, the list of completed rows
(`rows`/`nrows`) and the pending row (`newrow`).  A C `Buf` cell is a
string; an unassigned or reset cell is the empty string (`len == 0`). -/
structure Table where
  ncols : Nat
  rows : List (List String)
  newrow : List String
deriving DecidableEq, Repr

/-- `is_literal` in jl.c. -/
def isLiteral : TokenType → Bool
  | .null => true
  | .bool => true
  | .number => true
  | .string => true
  | _ => false

/-- `add_value` in jl.c: reset the pending-row cell, then copy `val` into
it; the net effect is that the cell now holds exactly `val`. -/
def addValue (t : Table) (column : Nat) (val : String) : Table :=
  { t with newrow := t.newrow.set column val }

/-- `add_row` in jl.c: if any cell of the pending row is non-empty,
append the pending row to the completed rows and reinitialize the pending
row to all-empty cells; otherwise leave the table unchanged (all cells of
the pending row are already empty in that case). -/
def addRow (t : Table) : Table :=
  if t.newrow.any (fun c => c.length > 0) then
    { t with rows := t.rows ++ [t.newrow],
             newrow := List.replicate t.ncols "" }
  else t

/-- The default field separator (`fieldsep` in jl.c, a single tab; all
claims below use the default). -/
def fieldsep : String := "\t"

/-- The cell text `emit_row` writes for table `t` at selected row `ri`,
column `j`: the stored cell when the table has completed rows, otherwise
nothing (the C code leaves `row` NULL and prints no bytes). -/
def cellOf (t : Table) (ri j : Nat) : String :=
  if t.rows.length > 0 then (t.rows.getD ri []).getD j "" else ""

/-- The cells of one output line, with the field separator prefixed to
every cell except the very first of the line (the `i > 0 || j > 0` test
of `emit_row` in jl.c). `i` is the index of the current table. -/
def emitCells : Nat → List (Table × Nat) → List String
  | _, [] => []
  | i, (t, ri) :: rest =>
      ((List.range t.ncols).map (fun j =>
        (if i > 0 ∨ j > 0 then fieldsep else "") ++ cellOf t ri j)) ++
      emitCells (i + 1) rest

/-- `emit_row` in jl.c: one output line (without the terminating newline,
which the list-of-lines structure of the output models), built from the
per-table selected row indices `ridx`. -/
def emitRow (ts : List Table) (ridx : List Nat) : String :=
  String.join (emitCells 0 (ts.zip ridx))

/-- The row count computed by the first loop of `flush_tables` in jl.c:
the product, over tables with at least one completed row, of their
completed-row counts (starting from 1). -/
def flushCount (ts : List Table) : Nat :=
  ts.foldl (fun acc t => if t.rows.length > 0 then acc * t.rows.length else acc) 1

/-- The row index `flush_tables` uses for each table on output line `i`:
`i % nrows` for tables with rows, and 0 (the never-written initial value
of the `rowindex` array) for tables without. -/
def flushIndex (i : Nat) (ts : List Table) : List Nat :=
  ts.map (fun t => if t.rows.length > 0 then i % t.rows.length else 0)

/-- `flush_tables` in jl.c: if no table has completed rows, emit nothing
and leave the tables untouched; otherwise emit `flushCount` lines by the
modulo-cycling Cartesian scheme and reset every table's completed rows. -/
def flushTables (ts : List Table) : List String × List Table :=
  if ts.any (fun t => t.rows.length > 0) then
    ((List.range (flushCount ts)).map (fun i => emitRow ts (flushIndex i ts)),
     ts.map (fun t => { t with rows := [] }))
  else ([], ts)

/-- The initial table states set up at the end of `parse_pattern` in
jl.c: each registered table gets an all-empty pending row of its column
count and no completed rows. -/
def initTables (reg : List Nat) : List Table :=
  reg.map (fun n => { ncols := n, rows := [], newrow := List.replicate n "" })

/-- The byte values of the whitespace characters skipped before each
token (`ws` in `read_token`: space, tab, LF, CR).  All character tests
of the lexer and the pattern compiler are byte comparisons in jl.c, so
the embedding compares `Char.toNat` codes against byte values. -/
def wsVals : List Nat := [32, 9, 10, 13]

/-- The whitespace-skipping loop at the top of `read_token` in jl.c. -/
def skipWs : List Char → List Char
  | [] => []
  | c :: cs => if c.toNat ∈ wsVals then skipWs cs else c :: cs

/-- The byte values of the valid single-character escapes of
`after_slash` in jl.c: quote, backslash, slash, b, f, n, r, t. -/
def escVals : List Nat := [34, 92, 47, 98, 102, 110, 114, 116]

/-- `isdigit` on a byte (the C digit cases `0 ... 9`). -/
def isDigitCh (c : Char) : Bool := 48 ≤ c.toNat && c.toNat ≤ 57

/-- `isxdigit` as used by `after_slash` in jl.c. -/
def isHex (c : Char) : Bool :=
  isDigitCh c || (97 ≤ c.toNat && c.toNat ≤ 102) || (65 ≤ c.toNat && c.toNat ≤ 70)

/-- `after_quote` in jl.c (with the two-byte `\\`+escape handling of
`after_slash` inlined at the backslash case): accumulate the string
lexeme into `b` until the closing quote (byte 34).  Escape sequences
are appended verbatim and never decoded; end of stream before the
closing quote, an invalid escape, a short or non-hex `\\u` sequence,
and a raw control byte are all fatal (`none`). -/
def afterQuote (b : List Char) : List Char → Option (List Char × List Char)
  | [] => none
  | c :: cs =>
    if c.toNat = 34 then some (b, cs)
    else if c.toNat = 92 then
      match cs with
      | [] => none
      | d :: cs2 =>
        if d.toNat ∈ escVals then afterQuote (b ++ [c, d]) cs2
        else if d.toNat = 117 then
          match cs2 with
          | h1 :: h2 :: h3 :: h4 :: cs3 =>
            if isHex h1 && isHex h2 && isHex h3 && isHex h4 then
              afterQuote (b ++ [c, d, h1, h2, h3, h4]) cs3
            else none
          | _ => none
        else none
    else if c.toNat ≤ 31 then none
    else afterQuote (b ++ [c]) cs

/-- `append_digits` in jl.c: consume a run of digits, appending them to
the lexeme buffer, and report how many were read; a NUL (end of stream)
is consumed, any other non-digit is pushed back. -/
def appendDigits (b : List Char) : List Char → Nat × List Char × List Char
  | [] => (0, b, [])
  | c :: cs =>
    if c.toNat = 0 then (0, b, cs)
    else if isDigitCh c then
      let r := appendDigits (b ++ [c]) cs
      (r.1 + 1, r.2)
    else (0, b, c :: cs)

/-- `after_exp` in jl.c: immediately after `e`/`E`, an optional sign must
be followed by at least one digit; end of stream here, or after the sign,
is fatal (`none`). -/
def afterExp (b : List Char) (cs : List Char) : Option (List Char × List Char) :=
  match cs with
  | [] => none
  | c :: r =>
    if c.toNat = 0 then none
    else if c.toNat = 43 ∨ c.toNat = 45 then
      let d := appendDigits (b ++ [c]) r
      if d.1 = 0 then none else some d.2
    else if isDigitCh c then some (appendDigits (b ++ [c]) r).2
    else none

/-- `after_frac` in jl.c: at least one digit must follow the decimal
point; afterwards an optional exponent part, with end of stream (or a
pushed-back delimiter) terminating the token. -/
def afterFrac (b : List Char) (cs : List Char) : Option (List Char × List Char) :=
  let d := appendDigits b cs
  if d.1 < 1 then none
  else
    match d.2.2 with
    | [] => some (d.2.1, [])
    | c :: r =>
      if c.toNat = 0 then some (d.2.1, r)
      else if c.toNat = 101 ∨ c.toNat = 69 then afterExp (d.2.1 ++ [c]) r
      else some (d.2.1, c :: r)

/-- `after_0` in jl.c. -/
def after0 (b : List Char) (cs : List Char) : Option (List Char × List Char) :=
  match cs with
  | [] => some (b, [])
  | c :: r =>
    if c.toNat = 46 then afterFrac (b ++ [c]) r
    else if c.toNat = 101 ∨ c.toNat = 69 then afterExp (b ++ [c]) r
    else if c.toNat = 0 then some (b, r)
    else some (b, c :: r)

/-- `after_1to9` in jl.c: greedily consume further digits, then an
optional fraction or exponent part. -/
def after1to9 (b : List Char) : List Char → Option (List Char × List Char)
  | [] => some (b, [])
  | c :: r =>
    if c.toNat = 0 then some (b, r)
    else if c.toNat = 46 then afterFrac (b ++ [c]) r
    else if isDigitCh c then after1to9 (b ++ [c]) r
    else if c.toNat = 101 ∨ c.toNat = 69 then afterExp (b ++ [c]) r
    else some (b, c :: r)

/-- `after_minus` in jl.c: a minus sign must be followed by a digit. -/
def afterMinus (b : List Char) (cs : List Char) : Option (List Char × List Char) :=
  match cs with
  | [] => none
  | c :: r =>
    if c.toNat = 48 then after0 (b ++ [c]) r
    else if isDigitCh c then after1to9 (b ++ [c]) r
    else none

/-- `read_token` in jl.c: skip whitespace, then read one token and
return it with the rest of the character stream; `none` is a lex error
(`die`). -/
def readToken (cs0 : List Char) : Option (Token × List Char) :=
  match skipWs cs0 with
  | [] => some ({ type := .eof, text := "" }, [])
  | c :: cs =>
    if c.toNat = 0 then some ({ type := .eof, text := "" }, cs)
    else if c.toNat = 123 then some ({ type := .beginObject, text := "\x7b" }, cs)
    else if c.toNat = 125 then some ({ type := .endObject, text := "\x7d" }, cs)
    else if c.toNat = 58 then some ({ type := .pairSep, text := ":" }, cs)
    else if c.toNat = 44 then some ({ type := .memberSep, text := "," }, cs)
    else if c.toNat = 91 then some ({ type := .beginArray, text := "[" }, cs)
    else if c.toNat = 93 then some ({ type := .endArray, text := "]" }, cs)
    else if c.toNat = 116 then
      match cs with
      | c1 :: c2 :: c3 :: r =>
        if c1.toNat = 114 ∧ c2.toNat = 117 ∧ c3.toNat = 101 then
          some ({ type := .bool, text := "true" }, r)
        else none
      | _ => none
    else if c.toNat = 102 then
      match cs with
      | c1 :: c2 :: c3 :: c4 :: r =>
        if c1.toNat = 97 ∧ c2.toNat = 108 ∧ c3.toNat = 115 ∧ c4.toNat = 101 then
          some ({ type := .bool, text := "false" }, r)
        else none
      | _ => none
    else if c.toNat = 110 then
      match cs with
      | c1 :: c2 :: c3 :: r =>
        if c1.toNat = 117 ∧ c2.toNat = 108 ∧ c3.toNat = 108 then
          some ({ type := .null, text := "null" }, r)
        else none
      | _ => none
    else if c.toNat = 34 then
      (afterQuote [] cs).map (fun p => ({ type := .string, text := String.mk p.1 }, p.2))
    else if c.toNat = 45 then
      (afterMinus [c] cs).map (fun p => ({ type := .number, text := String.mk p.1 }, p.2))
    else if c.toNat = 48 then
      (after0 [c] cs).map (fun p => ({ type := .number, text := String.mk p.1 }, p.2))
    else if isDigitCh c then
      (after1to9 [c] cs).map (fun p => ({ type := .number, text := String.mk p.1 }, p.2))
    else none

/-- Run the lexer over a whole character stream, collecting the tokens
before `Eof` (through which the runtime pulls them one at a time).
`none` is a lex error somewhere in the stream. -/
def tokenize : Nat → List Char → Option (List Token)
  | 0, _ => none
  | f + 1, cs =>
    match readToken cs with
    | none => none
    | some (t, r) =>
      if t.type = .eof then some []
      else match tokenize f r with
           | none => none
           | some ts => some (t :: ts)

/-- The operator tree (`Op`/`ArrayOp`/`ObjectOp`/`CollectOp` in jl.c).
Table pointers become indices into the table registry; an `Object`'s
property list is kept in the order `add_property` stores it (each new
property is prepended, so the stored order is the reverse of pattern
order). -/
inductive Op where
  | array (next : Op) (table : Option Nat) (isroot : Bool)
  | object (props : List (String × Op)) (table : Option Nat) (isroot : Bool)
  | collect (table : Nat) (column : Nat)
deriving Repr

/-- Pattern-compiler state: the remaining pattern characters and the
table registry, recorded as the current column count of each table
(`tables` plus each table's `ncols` in jl.c). -/
structure PState where
  pos : List Char
  tables : List Nat
deriving Repr

/-- `new_table` in jl.c: append a fresh zero-column table to the
registry and return its index. -/
def newTable (reg : List Nat) : Nat × List Nat :=
  (reg.length, reg ++ [0])

/-- `new_collect_op` in jl.c: the new Collect node takes the table's
current column count as its column index and bumps the count. -/
def newCollectOp (ti : Nat) (reg : List Nat) : Op × List Nat :=
  (.collect ti (reg.getD ti 0), reg.set ti (reg.getD ti 0 + 1))

/-- The quoted-name scan of `parse_property` in jl.c: consume up to an
unescaped closing quote, tracking only a one-character backslash toggle;
the name keeps all scanned bytes (escapes included).  If no closing
quote is found the name is everything to the end of the pattern. -/
def scanQuoted (esc : Bool) : List Char → List Char × List Char
  | [] => ([], [])
  | c :: cs =>
    if c.toNat = 34 then
      if esc then
        let r := scanQuoted false cs
        (c :: r.1, r.2)
      else ([], cs)
    else if c.toNat = 92 then
      let r := scanQuoted (!esc) cs
      (c :: r.1, r.2)
    else
      let r := scanQuoted false cs
      (c :: r.1, r.2)

/-- `parse_property` in jl.c: a quoted name, or a bareword running to
the next of `,[]{}` (or the end of the pattern); an empty bareword is an
error. -/
def parseProperty (cs : List Char) : Option (List Char × List Char) :=
  match cs with
  | c :: rest =>
    if c.toNat = 34 then some (scanQuoted false rest)
    else
      let name := cs.takeWhile (fun c => ¬ c.toNat ∈ [44, 91, 93, 123, 125])
      if name = [] then none else some (name, cs.drop name.length)
  | [] => none

/-- The byte value at a parser position, with the C string terminator
(0) at the end of the pattern. -/
def peekByte : List Char → Nat
  | [] => 0
  | c :: _ => c.toNat

mutual

/-- `parse_array` in jl.c: `[` then `*` (fresh table plus Collect), a
nested array, or a nested object; the closing `]` may be omitted at the
end of the pattern. -/
def parseArray : Nat → PState → Option (Op × PState)
  | 0, _ => none
  | f + 1, st =>
    if peekByte st.pos = 91 then
      let rest := st.pos.tail
      let sub : Option (Op × Option Nat × PState) :=
        if peekByte rest = 42 then
          let a := newTable st.tables
          let b := newCollectOp a.1 a.2
          some (b.1, some a.1, { pos := rest.tail, tables := b.2 })
        else if peekByte rest = 91 then
          (parseArray f { st with pos := rest }).map (fun p => (p.1, none, p.2))
        else if peekByte rest = 123 then
          (parseObject f { st with pos := rest }).map (fun p => (p.1, none, p.2))
        else none
      match sub with
      | none => none
      | some (next, tb, st1) =>
        if peekByte st1.pos = 0 then some (.array next tb false, st1)
        else if peekByte st1.pos = 93 then
          some (.array next tb false, { st1 with pos := st1.pos.tail })
        else none
    else none

/-- `parse_object` in jl.c: `{` then the property loop; the closing `}`
may be omitted at the end of the pattern; an object without properties
is rejected. -/
def parseObject : Nat → PState → Option (Op × PState)
  | 0, _ => none
  | f + 1, st =>
    if peekByte st.pos = 123 then
      match parseObjLoop f { st with pos := st.pos.tail } none [] with
      | none => none
      | some (props, tb, st1) =>
        if peekByte st1.pos = 125 then
          if props.isEmpty then none
          else some (.object props tb false, { st1 with pos := st1.pos.tail })
        else if peekByte st1.pos = 0 then
          if props.isEmpty then none
          else some (.object props tb false, st1)
        else none
    else none

/-- The `do`/`while` property loop of `parse_object` in jl.c.  Each
iteration reads one property name and then dispatches on the following
character: a property terminator (`,`, `}` or pattern end) makes the
property a Collect into the object's lazily created table; `[`/`{`
parse a sub-operator.  (In the sub-operator cases the C code would
dereference a NULL `prop` when the name was empty; that unreachable-in-
valid-patterns path is modelled as a parse failure.)  Properties are
prepended via `add_property`.  The loop continues past each `,` and
stops at the first non-comma terminator, which is left in the stream. -/
def parseObjLoop : Nat → PState → Option Nat → List (String × Op) →
    Option (List (String × Op) × Option Nat × PState)
  | 0, _, _, _ => none
  | f + 1, st, tb, props =>
    let pr := parseProperty st.pos
    let rest := match pr with
      | some p => p.2
      | none => st.pos
    if peekByte rest = 44 ∨ peekByte rest = 125 ∨ peekByte rest = 0 then
      match pr with
      | none => none
      | some (name, _) =>
        let a : Nat × List Nat := match tb with
          | some i => (i, st.tables)
          | none => newTable st.tables
        let b := newCollectOp a.1 a.2
        let props2 := (String.mk name, b.1) :: props
        let st2 : PState := { pos := rest, tables := b.2 }
        if peekByte st2.pos = 44 then
          parseObjLoop f { st2 with pos := st2.pos.tail } (some a.1) props2
        else some (props2, some a.1, st2)
    else if peekByte rest = 123 then
      match pr with
      | none => none
      | some (name, _) =>
        match parseObject f { st with pos := rest } with
        | none => none
        | some (op, st2) =>
          let props2 := (String.mk name, op) :: props
          if peekByte st2.pos = 44 then parseObjLoop f { st2 with pos := st2.pos.tail } tb props2
          else some (props2, tb, st2)
    else if peekByte rest = 91 then
      match pr with
      | none => none
      | some (name, _) =>
        match parseArray f { st with pos := rest } with
        | none => none
        | some (op, st2) =>
          let props2 := (String.mk name, op) :: props
          if peekByte st2.pos = 44 then parseObjLoop f { st2 with pos := st2.pos.tail } tb props2
          else some (props2, tb, st2)
    else none

end

/-- `parse_pattern` in jl.c: dispatch on the first pattern character;
anything but `[` or `{` is an invalid pattern.  The result is the
operator tree (all `isroot` flags still false) and the registry of
table column counts. -/
def parsePattern (pat : String) : Option (Op × List Nat) :=
  let cs := pat.toList
  if peekByte cs = 91 then
    (parseArray (cs.length + 1) { pos := cs, tables := [] }).map (fun p => (p.1, p.2.tables))
  else if peekByte cs = 123 then
    (parseObject (cs.length + 1) { pos := cs, tables := [] }).map (fun p => (p.1, p.2.tables))
  else none

/-- `find_root` in jl.c, returning the tree with the selected root's
`isroot` flag set (`none` when no root can be selected: the walk reached
a Collect, or an object had no properties — the latter would crash the C
code and cannot come out of the compiler). -/
def findRoot : Op → Option Op
  | .array next tb rt =>
    match next with
    | .collect ti c => some (.array (.collect ti c) tb true)
    | _ => (findRoot next).map (fun n2 => .array n2 tb rt)
  | .object [] _ _ => none
  | .object ((nm, sub) :: rest) tb rt =>
    if rest.isEmpty then
      match sub with
      | .collect ti c => some (.object [(nm, .collect ti c)] tb true)
      | _ => (findRoot sub).map (fun s2 => .object [(nm, s2)] tb rt)
    else some (.object ((nm, sub) :: rest) tb true)
  | .collect _ _ => none

/-- The token the lexer yields at the end of the stream. -/
def eofTok : Token := { type := .eof, text := "" }

/-- `peek_token` in jl.c over the remaining token stream: the head, or
`Eof` once the stream is exhausted (the lexer keeps returning `Eof`). -/
def peekTok (ts : List Token) : Token := ts.headD eofTok

/-- `accept` in jl.c: consume one token and require the given kind. -/
def acceptTok (ty : TokenType) (ts : List Token) : Option (List Token) :=
  if (peekTok ts).type = ty then some ts.tail else none

mutual

/-- `skip_value` in jl.c: structurally discard one document value. -/
def skipValue : Nat → List Token → Option (List Token)
  | 0, _ => none
  | f + 1, ts =>
    match (peekTok ts).type with
    | .beginArray => skipArray f ts
    | .beginObject => skipObject f ts
    | ty => if isLiteral ty then some ts.tail else none

/-- `skip_array` in jl.c. -/
def skipArray : Nat → List Token → Option (List Token)
  | 0, _ => none
  | f + 1, ts =>
    match acceptTok .beginArray ts with
    | none => none
    | some ts1 =>
      if (peekTok ts1).type = .endArray then some ts1.tail
      else skipArrElems f ts1

/-- The element loop of `skip_array` in jl.c: skip a value, then a
member separator continues the loop and `]` ends it. -/
def skipArrElems : Nat → List Token → Option (List Token)
  | 0, _ => none
  | f + 1, ts =>
    match skipValue f ts with
    | none => none
    | some ts1 =>
      if (peekTok ts1).type = .memberSep then skipArrElems f ts1.tail
      else if (peekTok ts1).type = .endArray then some ts1.tail
      else none

/-- `skip_object` in jl.c. -/
def skipObject : Nat → List Token → Option (List Token)
  | 0, _ => none
  | f + 1, ts =>
    match acceptTok .beginObject ts with
    | none => none
    | some ts1 =>
      if (peekTok ts1).type = .endObject then some ts1.tail
      else skipObjMembers f ts1

/-- The member loop of `skip_object` in jl.c: a string key, a pair
separator and a value; a member separator continues and `}` ends it. -/
def skipObjMembers : Nat → List Token → Option (List Token)
  | 0, _ => none
  | f + 1, ts =>
    match acceptTok .string ts with
    | none => none
    | some ts1 =>
      match acceptTok .pairSep ts1 with
      | none => none
      | some ts2 =>
        match skipValue f ts2 with
        | none => none
        | some ts3 =>
          if (peekTok ts3).type = .memberSep then skipObjMembers f ts3.tail
          else if (peekTok ts3).type = .endObject then some ts3.tail
          else none

end

/-- The whole runtime state: the remaining token stream, the table
registry contents, and the output lines emitted so far. -/
structure RunState where
  toks : List Token
  tables : List Table
  out : List String
deriving Repr

/-- Apply a function to the table at registry index `i` (a write
through a C table pointer). -/
def modifyNth (g : Table → Table) : Nat → List Table → List Table
  | _, [] => []
  | 0, t :: rest => g t :: rest
  | n + 1, t :: rest => t :: modifyNth g n rest

/-- The `if (op->op.table) add_row(op->op.table)` step of the container
operators in jl.c, acting on the table registry. -/
def applyAddRow (tb : Option Nat) (tables : List Table) : List Table :=
  match tb with
  | none => tables
  | some i => modifyNth addRow i tables

/-- Look a property key up in an object operator's stored property list
(first `strcmp` match, in stored order), as `run_object_op` does. -/
def findProp : List (String × Op) → String → Option Op
  | [], _ => none
  | (n, op) :: rest, k => if n = k then some op else findProp rest k

mutual

/-- `run_op` in jl.c, with `run_array_op`, `run_object_op` and
`run_collect_op` inlined as the three match arms.  An Array operator
facing a non-array value, and an Object operator facing a non-object
value, silently `skip_value` one value; a Collect facing a container
skips it structurally; otherwise the operators consume their container,
drive the tables and trigger the root flush. -/
def runOp : Nat → Op → RunState → Option RunState
  | 0, _, _ => none
  | f + 1, .array next tb rt, s =>
    match s with
    | ⟨toks, tables, out⟩ =>
      if (peekTok toks).type = .beginArray then
        let toks1 := toks.tail
        if (peekTok toks1).type = .endArray then some ⟨toks1.tail, tables, out⟩
        else
          match runArrLoop f next tb ⟨toks1, tables, out⟩ with
          | none => none
          | some ⟨toks2, tables2, out2⟩ =>
            let tables3 := applyAddRow tb tables2
            if rt then
              match flushTables tables3 with
              | (lines, tables4) => some ⟨toks2, tables4, out2 ++ lines⟩
            else some ⟨toks2, tables3, out2⟩
      else
        match skipValue f toks with
        | none => none
        | some ts => some ⟨ts, tables, out⟩
  | f + 1, .object props tb rt, s =>
    match s with
    | ⟨toks, tables, out⟩ =>
      if (peekTok toks).type = .beginObject then
        match runObjLoop f props ⟨toks.tail, tables, out⟩ with
        | none => none
        | some ⟨toks2, tables2, out2⟩ =>
          let tables3 := applyAddRow tb tables2
          if rt then
            match flushTables tables3 with
            | (lines, tables4) => some ⟨toks2, tables4, out2 ++ lines⟩
          else some ⟨toks2, tables3, out2⟩
      else
        match skipValue f toks with
        | none => none
        | some ts => some ⟨ts, tables, out⟩
  | f + 1, .collect ti col, s =>
    match s with
    | ⟨toks, tables, out⟩ =>
      match (peekTok toks).type with
      | .beginArray =>
        match skipArray f toks with
        | none => none
        | some ts => some ⟨ts, tables, out⟩
      | .beginObject =>
        match skipObject f toks with
        | none => none
        | some ts => some ⟨ts, tables, out⟩
      | ty =>
        if isLiteral ty then
          some ⟨toks.tail,
                modifyNth (fun tab => addValue tab col (peekTok toks).text) ti tables,
                out⟩
        else none

/-- The element loop of `run_array_op` in jl.c: run the inner operator,
promote the table's pending row if the array owns a table, then a member
separator continues the loop and `]` ends it (anything else is fatal).
Returns the state just after the consumed `]`. -/
def runArrLoop : Nat → Op → Option Nat → RunState → Option RunState
  | 0, _, _, _ => none
  | f + 1, next, tb, s =>
    match runOp f next s with
    | none => none
    | some ⟨toks1, tables1, out1⟩ =>
      let tables2 := applyAddRow tb tables1
      if (peekTok toks1).type = .memberSep then runArrLoop f next tb ⟨toks1.tail, tables2, out1⟩
      else if (peekTok toks1).type = .endArray then some ⟨toks1.tail, tables2, out1⟩
      else none

/-- The member loop of `run_object_op` in jl.c: while the next token is
a string key, consume it and the pair separator, run the matching
property's operator (or `skip_value` when no property matches), and
continue past member separators; the loop must end on `}`, which is
consumed.  Returns the state just after the consumed `}`. -/
def runObjLoop : Nat → List (String × Op) → RunState → Option RunState
  | 0, _, _ => none
  | f + 1, props, s =>
    match s with
    | ⟨toks, tables, out⟩ =>
      let t := peekTok toks
      if t.type = .string then
        match acceptTok .pairSep toks.tail with
        | none => none
        | some ts2 =>
          let s3o : Option RunState :=
            match findProp props t.text with
            | some op => runOp f op ⟨ts2, tables, out⟩
            | none =>
              match skipValue f ts2 with
              | none => none
              | some ts3 => some ⟨ts3, tables, out⟩
          match s3o with
          | none => none
          | some ⟨toks3, tables3, out3⟩ =>
            if (peekTok toks3).type = .memberSep then runObjLoop f props ⟨toks3.tail, tables3, out3⟩
            else if (peekTok toks3).type = .endObject then some ⟨toks3.tail, tables3, out3⟩
            else none
      else if t.type = .endObject then some ⟨toks.tail, tables, out⟩
      else none

end

/-- The `do { run_op(head); } while (peek != Eof)` loop of `main` in
jl.c over one input stream: the top operator always runs at least once
before the end-of-stream check. -/
def runMain : Nat → Op → RunState → Option RunState
  | 0, _, _ => none
  | f + 1, op, s =>
    match runOp f op s with
    | none => none
    | some ⟨toks1, tables1, out1⟩ =>
      if (peekTok toks1).type = .eof then some ⟨toks1, tables1, out1⟩
      else runMain f op ⟨toks1, tables1, out1⟩

/-- The whole pipeline of `main` in jl.c on one pattern and one input
stream read from standard input: compile the pattern, select the root,
lex the input, interpret it, and return the emitted lines. -/
def jlRun (pat input : String) (fuel : Nat) : Option (List String) :=
  match parsePattern pat with
  | none => none
  | some (op0, reg) =>
    match findRoot op0 with
    | none => none
    | some op =>
      match tokenize fuel input.toList with
      | none => none
      | some toks =>
        match runMain fuel op { toks := toks, tables := initTables reg, out := [] } with
        | none => none
        | some s => some s.out

/-! ### Helper lemmas -/

theorem string_ne_empty_iff_length_pos (s : String) : 0 < s.length ↔ s ≠ "" := by
  cases s with
  | mk data =>
    cases data <;> simp [String.length, String.ext_iff]

theorem table_any_cell_iff (l : List String) :
    (l.any fun c => c.length > 0) = true ↔ ∃ c ∈ l, c ≠ "" := by
  simp only [List.any_eq_true, decide_eq_true_eq]
  constructor
  · rintro ⟨c, hc, hlen⟩
    exact ⟨c, hc, (string_ne_empty_iff_length_pos c).mp hlen⟩
  · rintro ⟨c, hc, hne⟩
    exact ⟨c, hc, (string_ne_empty_iff_length_pos c).mpr hne⟩

theorem flushCount_eq_prod (ts : List Table) :
    flushCount ts = (ts.map (fun t => max 1 t.rows.length)).prod := by
  have key : ∀ (l : List Table) (acc : Nat),
      l.foldl (fun acc t => if t.rows.length > 0 then acc * t.rows.length else acc) acc =
        acc * (l.map (fun t => max 1 t.rows.length)).prod := by
    intro l
    induction l with
    | nil => intro acc; simp
    | cons t l ih =>
      intro acc
      simp only [List.foldl_cons, List.map_cons, List.prod_cons, ih]
      rcases Nat.eq_zero_or_pos t.rows.length with h | h
      · simp [h]
      · rw [if_pos h, Nat.max_eq_right h, Nat.mul_assoc]
  simpa using key ts 1

theorem flushIndex_eq (i : Nat) (ts : List Table) :
    flushIndex i ts = ts.map (fun t => i % max 1 t.rows.length) := by
  unfold flushIndex
  congr 1
  funext t
  rcases Nat.eq_zero_or_pos t.rows.length with h | h
  · simp [h, Nat.mod_one]
  · rw [if_pos h, Nat.max_eq_right h]

/-! ### Claim C5 -/

/-- Claim C5: for every table and every call to `add_row`, the pending
row is appended to the completed rows iff at least one of its cells is
non-empty; after the call the pending row's cells are all empty; and,
given the table invariant, every completed row has at least one
non-empty cell and exactly `ncols` cells. -/
theorem add_row_spec (t : Table)
    (hlen : t.newrow.length = t.ncols)
    (hrows : ∀ r ∈ t.rows, r.length = t.ncols ∧ ∃ c ∈ r, c ≠ "") :
    ((addRow t).rows = t.rows ++ [t.newrow] ↔ ∃ c ∈ t.newrow, c ≠ "") ∧
    ((¬ ∃ c ∈ t.newrow, c ≠ "") → addRow t = t) ∧
    (∀ c ∈ (addRow t).newrow, c = "") ∧
    ((addRow t).newrow.length = t.ncols) ∧
    (∀ r ∈ (addRow t).rows, r.length = t.ncols ∧ ∃ c ∈ r, c ≠ "") := by
  by_cases h : ∃ c ∈ t.newrow, c ≠ ""
  · have hc : (t.newrow.any fun c => c.length > 0) = true := (table_any_cell_iff _).mpr h
    have haddRow : addRow t =
        { t with rows := t.rows ++ [t.newrow], newrow := List.replicate t.ncols "" } := by
      simp [addRow, hc]
    refine ⟨by simp [haddRow, h], fun hn => absurd h hn, ?_, by simp [haddRow], ?_⟩
    · intro c hc2
      rw [haddRow] at hc2
      exact List.eq_of_mem_replicate hc2
    · intro r hr
      rw [haddRow] at hr
      simp only [List.mem_append, List.mem_singleton] at hr
      rcases hr with hr | hr
      · exact hrows r hr
      · subst hr; exact ⟨hlen, h⟩
  · have hc : (t.newrow.any fun c => c.length > 0) = false := by
      rcases hb : t.newrow.any fun c => c.length > 0 with _ | _
      · rfl
      · exact absurd ((table_any_cell_iff _).mp hb) h
    have haddRow : addRow t = t := by simp [addRow, hc]
    refine ⟨?_, fun _ => haddRow, ?_, by simp [haddRow, hlen], ?_⟩
    · rw [haddRow]
      constructor
      · intro habs
        have := congrArg List.length habs
        simp at this
      · intro habs; exact absurd habs h
    · intro c hc2
      rw [haddRow] at hc2
      by_contra hne
      exact h ⟨c, hc2, hne⟩
    · intro r hr
      rw [haddRow] at hr
      exact hrows r hr

theorem add_row_spec_witness :
    ((addRow ⟨2, [], ["x", ""]⟩).rows = [] ++ [["x", ""]] ↔ ∃ c ∈ ["x", ""], c ≠ "") ∧
    ((¬ ∃ c ∈ ["x", ""], c ≠ "") → addRow ⟨2, [], ["x", ""]⟩ = ⟨2, [], ["x", ""]⟩) ∧
    (∀ c ∈ (addRow ⟨2, [], ["x", ""]⟩).newrow, c = "") ∧
    ((addRow ⟨2, [], ["x", ""]⟩).newrow.length = 2) ∧
    (∀ r ∈ (addRow ⟨2, [], ["x", ""]⟩).rows, r.length = 2 ∧ ∃ c ∈ r, c ≠ "") :=
  add_row_spec ⟨2, [], ["x", ""]⟩ (by decide) (by simp)

/-! ### Claim C1 -/

/-- Claim C1: for every flush, if the tables hold completed-row counts
`r_1, ..., r_k` and some `r_i > 0`, exactly `max(1,r_1) * ... * max(1,r_k)`
lines are emitted, line `i` being built from row index `i % max(1, r_j)`
of table `j`; if all counts are zero nothing is emitted; and afterwards
every table's completed rows are empty. -/
theorem flush_tables_spec (ts : List Table) :
    ((∃ t ∈ ts, t.rows ≠ []) →
       ((flushTables ts).1.length = (ts.map (fun t => max 1 t.rows.length)).prod ∧
        ∀ i, i < (flushTables ts).1.length →
          (flushTables ts).1.getD i "" =
            emitRow ts (ts.map (fun t => i % max 1 t.rows.length)))) ∧
    ((∀ t ∈ ts, t.rows = []) → (flushTables ts).1 = []) ∧
    (∀ t2 ∈ (flushTables ts).2, t2.rows = []) := by
  have hiff : (ts.any fun t => t.rows.length > 0) = true ↔ ∃ t ∈ ts, t.rows ≠ [] := by
    simp only [List.any_eq_true, decide_eq_true_eq]
    constructor
    · rintro ⟨t, ht, hl⟩; exact ⟨t, ht, List.length_pos.mp hl⟩
    · rintro ⟨t, ht, hl⟩; exact ⟨t, ht, List.length_pos.mpr hl⟩
  refine ⟨?_, ?_, ?_⟩
  · intro hex
    have hc := hiff.mpr hex
    have hflush : flushTables ts =
        ((List.range (flushCount ts)).map (fun i => emitRow ts (flushIndex i ts)),
         ts.map (fun t => { t with rows := [] })) := by
      simp [flushTables, hc]
    constructor
    · simp [hflush, flushCount_eq_prod]
    · intro i hi
      rw [hflush] at hi ⊢
      simp only [List.length_map, List.length_range] at hi
      rw [List.getD_eq_getElem _ _ (by simpa using hi)]
      simp [flushIndex_eq]
  · intro hall
    have hc : (ts.any fun t => t.rows.length > 0) = false := by
      rcases hb : ts.any fun t => t.rows.length > 0 with _ | _
      · rfl
      · rcases hiff.mp hb with ⟨t, ht, hne⟩
        exact absurd (hall t ht) hne
    simp [flushTables, hc]
  · rcases hb : ts.any fun t => t.rows.length > 0 with _ | _
    · intro t2 ht2
      simp only [flushTables, hb, Bool.false_eq_true, if_neg, ite_false] at ht2
      have := List.any_eq_false.mp hb t2 ht2
      simpa using this
    · intro t2 ht2
      simp only [flushTables, hb, ite_true] at ht2
      rcases List.mem_map.mp ht2 with ⟨t, _, ht⟩
      rw [← ht]

theorem flush_tables_spec_witness :
    ((flushTables [⟨1, [["a"], ["b"]], [""]⟩]).1.length =
       (([⟨1, [["a"], ["b"]], [""]⟩] : List Table).map (fun t => max 1 t.rows.length)).prod) ∧
    ((flushTables [⟨1, [["a"], ["b"]], [""]⟩]).1.getD 1 "" =
       emitRow [⟨1, [["a"], ["b"]], [""]⟩]
         (([⟨1, [["a"], ["b"]], [""]⟩] : List Table).map (fun t => 1 % max 1 t.rows.length))) ∧
    ((flushTables [(⟨1, [], [""]⟩ : Table)]).1 = []) ∧
    (∀ t2 ∈ (flushTables [⟨1, [["a"], ["b"]], [""]⟩]).2, t2.rows = []) := by
  have h := flush_tables_spec [⟨1, [["a"], ["b"]], [""]⟩]
  have h2 := flush_tables_spec [(⟨1, [], [""]⟩ : Table)]
  exact ⟨(h.1 (by simp)).1, (h.1 (by simp)).2 1 (by decide), h2.2.1 (by simp), h.2.2⟩

/-! ### Claim C3 -/

/-- Claim C3: column indices in a table are assigned in the order the
Collect nodes are created during compilation; compiling pattern
`{a,b}` assigns column 0 to `a` and column 1 to `b` (the stored
property list being in reverse pattern order), and running it on
the document with a=1 and b=2 with the default separator emits the
single line `1<TAB>2`. -/
theorem collect_column_order :
    parsePattern "\x7ba,b\x7d" =
      some (.object [("b", .collect 0 1), ("a", .collect 0 0)] (some 0) false, [2]) ∧
    jlRun "\x7ba,b\x7d" "\x7b\"a\":1,\"b\":2\x7d" 100 = some ["1\t2"] :=
  ⟨rfl, rfl⟩

/-! ### Claim C2 -/

/-- Claim C2: the compiled pattern `[{id,vals[*]}]` run on the single
top-level document pairing id `a` with vals `[1,2]` and id `b` with
vals `[3]`, with the default separator, emits exactly the three lines
`a<TAB>1`, `a<TAB>2`, `b<TAB>3`; root selection marks the inner Object
(so the flush happens as each array element's object completes). -/
theorem scenario_s4 :
    parsePattern "[\x7bid,vals[*]\x7d]" =
      some (.array (.object [("vals", .array (.collect 1 0) (some 1) false),
                             ("id", .collect 0 0)] (some 0) false) none false, [1, 1]) ∧
    findRoot (.array (.object [("vals", .array (.collect 1 0) (some 1) false),
                               ("id", .collect 0 0)] (some 0) false) none false) =
      some (.array (.object [("vals", .array (.collect 1 0) (some 1) false),
                             ("id", .collect 0 0)] (some 0) true) none false) ∧
    jlRun "[\x7bid,vals[*]\x7d]"
        "[\x7b\"id\":\"a\",\"vals\":[1,2]\x7d,\x7b\"id\":\"b\",\"vals\":[3]\x7d]" 200 =
      some ["a\t1", "a\t2", "b\t3"] :=
  ⟨rfl, rfl, rfl⟩

/-! ### Claim C6 -/

theorem afterQuote_preserves (b cs : List Char) (lx rest : List Char)
    (h : afterQuote b cs = some (lx, rest)) : b ++ cs = lx ++ '"' :: rest := by
  induction b, cs using afterQuote.induct generalizing lx rest with
  | case1 b =>
    simp [afterQuote] at h
  | case2 b c cs h34 =>
    rw [afterQuote.eq_def] at h
    simp [h34] at h
    have hc : c = '"' := by
      have := Char.ofNat_toNat c
      rw [h34] at this
      exact this.symm
    simp [hc, h.1, h.2]
  | case3 b c h34 h92 =>
    rw [afterQuote.eq_def] at h
    simp [h34, h92] at h
  | case4 b c1 h34 h92 d cs hesc ih =>
    rw [afterQuote.eq_def] at h
    rcases cs with _ | ⟨a1, _ | ⟨a2, _ | ⟨a3, _ | ⟨a4, r5⟩⟩⟩⟩ <;>
      · simp [h34, h92, hesc] at h
        simpa using ih lx rest h
  | case5 b c1 h34 h92 d hnesc h117 h1 h2 h3 h4 cs3 hhex ih =>
    rw [afterQuote.eq_def] at h
    simp [h34, h92, hnesc, h117, hhex, escVals] at h
    simpa using ih lx rest h
  | case6 b c1 h34 h92 d hnesc h117 h1 h2 h3 h4 cs3 hhex =>
    rw [afterQuote.eq_def] at h
    simp [h34, h92, hnesc, h117, hhex, escVals] at h
  | case7 b c1 h34 h92 d cs hnesc h117 hshape =>
    rw [afterQuote.eq_def] at h
    rcases cs with _ | ⟨a1, _ | ⟨a2, _ | ⟨a3, _ | ⟨a4, r5⟩⟩⟩⟩
    · simp [h34, h92, hnesc, h117, escVals] at h
    · simp [h34, h92, hnesc, h117, escVals] at h
    · simp [h34, h92, hnesc, h117, escVals] at h
    · simp [h34, h92, hnesc, h117, escVals] at h
    · exact absurd rfl (hshape a1 a2 a3 a4 r5)
  | case8 b c1 h34 h92 d cs hnesc h117 =>
    rw [afterQuote.eq_def] at h
    rcases cs with _ | ⟨a1, _ | ⟨a2, _ | ⟨a3, _ | ⟨a4, r5⟩⟩⟩⟩ <;>
      simp [h34, h92, h117] at h <;>
      exact absurd (by simpa [escVals] using h.1) hnesc
  | case9 b c cs h34 h92 hctl =>
    rw [afterQuote.eq_def] at h
    simp [h34, h92, hctl] at h
  | case10 b c cs h34 h92 hctl ih =>
    rw [afterQuote.eq_def] at h
    simp [h34, h92, hctl] at h
    simpa using ih lx rest h

theorem esc_two_bytes (b : List Char) (d : Char) (cs : List Char) (hd : d.toNat ∈ escVals) :
    afterQuote b ('\\' :: d :: cs) = afterQuote (b ++ ['\\', d]) cs := by
  rcases cs with _ | ⟨a1, _ | ⟨a2, _ | ⟨a3, _ | ⟨a4, r5⟩⟩⟩⟩ <;>
    · rw [afterQuote.eq_def]
      simp [hd]

theorem esc_u_six_bytes (b : List Char) (h1 h2 h3 h4 : Char) (cs : List Char)
    (e1 : isHex h1 = true) (e2 : isHex h2 = true) (e3 : isHex h3 = true) (e4 : isHex h4 = true) :
    afterQuote b ('\\' :: 'u' :: h1 :: h2 :: h3 :: h4 :: cs) =
      afterQuote (b ++ ['\\', 'u', h1, h2, h3, h4]) cs := by
  rw [afterQuote.eq_def]
  simp [e1, e2, e3, e4, escVals]

/-- Claim C6: string lexemes byte-equal the input between the quotes
with escape sequences left unprocessed.  A successful string scan
reassembles the input exactly as lexeme ++ closing quote ++ rest; a
simple escape `\\x` contributes the two bytes backslash and `x`; a
`\\uXXXX` escape contributes all six bytes; and a full run of pattern
`[*]` on a document holding the string with those escapes emits the
raw bytes untouched. -/
theorem string_lexeme_preserved :
    (∀ b cs lx rest, afterQuote b cs = some (lx, rest) → b ++ cs = lx ++ '"' :: rest) ∧
    (∀ (b : List Char) (d : Char) (cs : List Char), d.toNat ∈ escVals →
       afterQuote b ('\\' :: d :: cs) = afterQuote (b ++ ['\\', d]) cs) ∧
    (∀ (b : List Char) (h1 h2 h3 h4 : Char) (cs : List Char),
       isHex h1 = true → isHex h2 = true → isHex h3 = true → isHex h4 = true →
       afterQuote b ('\\' :: 'u' :: h1 :: h2 :: h3 :: h4 :: cs) =
         afterQuote (b ++ ['\\', 'u', h1, h2, h3, h4]) cs) ∧
    jlRun "[*]" "[\"a\\n\\u0041\"]" 100 = some ["a\\n\\u0041"] :=
  ⟨afterQuote_preserves, esc_two_bytes, esc_u_six_bytes, rfl⟩

theorem string_lexeme_preserved_witness :
    ([] : List Char) ++ ['a', '"'] = ['a'] ++ '"' :: [] ∧
    afterQuote [] ['\\', 'n', '"'] = afterQuote ([] ++ ['\\', 'n']) ['"'] ∧
    afterQuote [] ['\\', 'u', '0', '0', '4', '1', '"'] =
      afterQuote ([] ++ ['\\', 'u', '0', '0', '4', '1']) ['"'] := by
  have h := string_lexeme_preserved
  exact ⟨h.1 [] ['a', '"'] ['a'] [] (by decide), h.2.1 [] 'n' ['"'] (by decide),
         h.2.2.1 [] '0' '0' '4' '1' ['"'] (by decide) (by decide) (by decide) (by decide)⟩

/-! ### Claim C7 -/

theorem appendDigits_all (b ds : List Char) (h : ∀ c ∈ ds, isDigitCh c = true) :
    appendDigits b ds = (ds.length, b ++ ds, []) := by
  induction ds generalizing b with
  | nil => simp [appendDigits]
  | cons c cs ih =>
    have hc : isDigitCh c = true := h c (by simp)
    have hc0 : ¬ c.toNat = 0 := by
      intro h0
      rw [isDigitCh, h0] at hc
      simp at hc
    rw [appendDigits]
    simp [hc0, hc, ih (b ++ [c]) (fun x hx => h x (by simp [hx]))]

/-- Claim C7: in the number lexer, end of stream immediately after
`e`/`E` is fatal, as is end of stream after an exponent sign with no
digits; but end of stream after at least one fractional digit, or
after at least one exponent digit, terminates the number token
successfully. -/
theorem number_eof_spec :
    (∀ b, afterExp b [] = none) ∧
    (∀ (b : List Char) (s : Char), s.toNat = 43 ∨ s.toNat = 45 → afterExp b [s] = none) ∧
    (∀ b ds, ds ≠ [] → (∀ c ∈ ds, isDigitCh c = true) → afterFrac b ds = some (b ++ ds, [])) ∧
    (∀ b ds, ds ≠ [] → (∀ c ∈ ds, isDigitCh c = true) → afterExp b ds = some (b ++ ds, [])) := by
  refine ⟨fun b => rfl, ?_, ?_, ?_⟩
  · intro b s hs
    have h0 : ¬ s.toNat = 0 := by rcases hs with h | h <;> omega
    unfold afterExp
    simp [h0, hs, appendDigits]
  · intro b ds hne h
    unfold afterFrac
    rw [appendDigits_all b ds h]
    have hlen : ¬ ds.length < 1 := by
      have := List.length_pos.mpr hne
      omega
    simp [hlen]
  · intro b ds hne h
    rcases ds with _ | ⟨c, cs⟩
    · exact absurd rfl hne
    · have hd : isDigitCh c = true := h c (by simp)
      have hc : 48 ≤ c.toNat ∧ c.toNat ≤ 57 := by
        rw [isDigitCh] at hd
        simpa using hd
      have h0 : ¬ c.toNat = 0 := by omega
      have h45 : ¬(c.toNat = 43 ∨ c.toNat = 45) := by omega
      unfold afterExp
      simp [h0, h45, hd, appendDigits_all (b ++ [c]) cs (fun x hx => h x (by simp [hx]))]

theorem number_eof_spec_witness :
    afterExp ['1', 'e'] [] = none ∧
    afterExp ['1', 'e'] ['+'] = none ∧
    afterExp ['1', 'e'] ['-'] = none ∧
    afterFrac ['1', '.'] ['5'] = some (['1', '.', '5'], []) ∧
    afterExp ['1', 'e'] ['7'] = some (['1', 'e', '7'], []) := by
  have h := number_eof_spec
  exact ⟨h.1 _, h.2.1 _ '+' (Or.inl (by decide)), h.2.1 _ '-' (Or.inr (by decide)),
         h.2.2.1 _ _ (by decide) (by decide), h.2.2.2 _ _ (by decide) (by decide)⟩

/-! ### Claim C9 -/

/-- Well-formedness of compiled operator trees: every leaf is a
Collect, and every Object node has a non-empty property list.  The
pattern compiler only produces such trees. -/

inductive WfOp : Op → Prop
  | collect (ti c : Nat) : WfOp (.collect ti c)
  | array (next : Op) (tb : Option Nat) (rt : Bool) : WfOp next → WfOp (.array next tb rt)
  | object (props : List (String × Op)) (tb : Option Nat) (rt : Bool) :
      props ≠ [] → (∀ p ∈ props, WfOp p.2) → WfOp (.object props tb rt)

/-- Whether an operator is an Array or Object node (not a Collect). -/
def opIsContainer : Op → Bool
  | .collect _ _ => false
  | _ => true

theorem parser_wf : ∀ f : Nat,
    (∀ st op st2, parseArray f st = some (op, st2) → WfOp op ∧ opIsContainer op = true) ∧
    (∀ st op st2, parseObject f st = some (op, st2) → WfOp op ∧ opIsContainer op = true) ∧
    (∀ st tb props res, parseObjLoop f st tb props = some res →
       (∀ p ∈ props, WfOp p.2) → (res.1 ≠ [] ∧ ∀ p ∈ res.1, WfOp p.2)) := by
  intro f
  induction f with
  | zero =>
    refine ⟨?_, ?_, ?_⟩
    · intro st op st2 h
      simp [parseArray] at h
    · intro st op st2 h
      simp [parseObject] at h
    · intro st tb props res h
      simp [parseObjLoop] at h
  | succ f ih =>
    obtain ⟨ihA, ihO, ihL⟩ := ih
    refine ⟨?_, ?_, ?_⟩
    · -- parseArray
      intro st op st2 h
      rw [parseArray] at h
      dsimp only [] at h
      split at h
      · split at h
        · exact absurd h (by simp)
        · rename_i next tb st1 heq
          have hnext : WfOp next := by
            split at heq
            · simp [newTable, newCollectOp] at heq
              rw [← heq.1]
              exact WfOp.collect _ _
            · split at heq
              · rcases Option.map_eq_some'.mp heq with ⟨p, hp, hpe⟩
                simp at hpe
                rw [← hpe.1]
                exact (ihA _ p.1 p.2 hp).1
              · split at heq
                · rcases Option.map_eq_some'.mp heq with ⟨p, hp, hpe⟩
                  simp at hpe
                  rw [← hpe.1]
                  exact (ihO _ p.1 p.2 hp).1
                · exact absurd heq (by simp)
          split at h
          · simp at h
            rw [← h.1]
            exact ⟨WfOp.array _ _ _ hnext, rfl⟩
          · split at h
            · simp at h
              rw [← h.1]
              exact ⟨WfOp.array _ _ _ hnext, rfl⟩
            · exact absurd h (by simp)
      · exact absurd h (by simp)
    · -- parseObject
      intro st op st2 h
      rw [parseObject] at h
      split at h
      · split at h
        · exact absurd h (by simp)
        · rename_i props tb st1 heq
          have hps := ihL _ _ _ _ heq (by simp)
          split at h
          · split at h
            · exact absurd h (by simp)
            · simp at h
              rw [← h.1]
              refine ⟨WfOp.object _ _ _ ?_ hps.2, rfl⟩
              simpa using hps.1
          · split at h
            · split at h
              · exact absurd h (by simp)
              · simp at h
                rw [← h.1]
                refine ⟨WfOp.object _ _ _ ?_ hps.2, rfl⟩
                simpa using hps.1
            · exact absurd h (by simp)
      · exact absurd h (by simp)
    · -- parseObjLoop
      intro st tb props res h hprops
      rw [parseObjLoop.eq_def] at h
      dsimp only [] at h
      cases hpr : parseProperty st.pos with
      | none =>
        rw [hpr] at h
        dsimp only [] at h
        split at h
        · exact absurd h (by simp)
        · split at h
          · exact absurd h (by simp)
          · split at h
            · exact absurd h (by simp)
            · exact absurd h (by simp)
      | some pnr =>
        obtain ⟨name, rest2⟩ := pnr
        rw [hpr] at h
        dsimp only [] at h
        split at h
        · -- collect property
          split at h
          · exact ihL _ _ _ _ h (by
              intro p hp
              rcases List.mem_cons.mp hp with hp | hp
              · rw [hp]
                exact WfOp.collect _ _
              · exact hprops p hp)
          · simp only [Option.some.injEq] at h
            rw [← h]
            refine ⟨by simp, ?_⟩
            intro p hp
            rcases List.mem_cons.mp hp with hp | hp
            · rw [hp]
              exact WfOp.collect _ _
            · exact hprops p hp
        · split at h
          · -- nested object property
            cases hpo : parseObject f { pos := rest2, tables := st.tables } with
            | none =>
              rw [hpo] at h
              simp at h
            | some pr2 =>
              obtain ⟨op2, st3⟩ := pr2
              rw [hpo] at h
              dsimp only [] at h
              have hop := (ihO _ _ _ hpo).1
              split at h
              · exact ihL _ _ _ _ h (by
                  intro p hp
                  rcases List.mem_cons.mp hp with hp | hp
                  · rw [hp]; exact hop
                  · exact hprops p hp)
              · simp only [Option.some.injEq] at h
                rw [← h]
                refine ⟨by simp, ?_⟩
                intro p hp
                rcases List.mem_cons.mp hp with hp | hp
                · rw [hp]; exact hop
                · exact hprops p hp
          · split at h
            · -- nested array property
              cases hpo : parseArray f { pos := rest2, tables := st.tables } with
              | none =>
                rw [hpo] at h
                simp at h
              | some pr2 =>
                obtain ⟨op2, st3⟩ := pr2
                rw [hpo] at h
                dsimp only [] at h
                have hop := (ihA _ _ _ hpo).1
                split at h
                · exact ihL _ _ _ _ h (by
                    intro p hp
                    rcases List.mem_cons.mp hp with hp | hp
                    · rw [hp]; exact hop
                    · exact hprops p hp)
                · simp only [Option.some.injEq] at h
                  rw [← h]
                  refine ⟨by simp, ?_⟩
                  intro p hp
                  rcases List.mem_cons.mp hp with hp | hp
                  · rw [hp]; exact hop
                  · exact hprops p hp
            · exact absurd h (by simp)

theorem findRoot_isSome (op : Op) (hwf : WfOp op) (hc : opIsContainer op = true) :
    (findRoot op).isSome := by
  induction hwf with
  | collect ti c => simp [opIsContainer] at hc
  | array next tb rt hnext ih =>
    cases next with
    | collect ti c => simp [findRoot]
    | array n2 t2 r2 =>
      rw [findRoot]
      · simpa using ih (by rfl)
      · intro ti c h
        simp at h
    | object p2 t2 r2 =>
      rw [findRoot]
      · simpa using ih (by rfl)
      · intro ti c h
        simp at h
  | object props tb rt hne hall ih =>
    rcases props with _ | ⟨⟨nm, sub⟩, rest⟩
    · exact absurd rfl hne
    · rcases rest with _ | ⟨q, rest2⟩
      · cases sub with
        | collect ti c => simp [findRoot]
        | array n2 t2 r2 =>
          rw [findRoot]
          · simpa using ih ⟨nm, .array n2 t2 r2⟩ (by simp) (by rfl)
          · intro ti c h
            simp at h
        | object p2 t2 r2 =>
          rw [findRoot]
          · simpa using ih ⟨nm, .object p2 t2 r2⟩ (by simp) (by rfl)
          · intro ti c h
            simp at h
      · simp [findRoot]

/-- Claim C9: whenever pattern compilation succeeds, root selection
succeeds as well: every compiled tree bottoms out in Collect nodes, so
the walk of `find_root` always finds a node to mark and the abort in
`main` taken when no root is found is unreachable. -/
theorem parse_implies_root (pat : String) (op : Op) (reg : List Nat)
    (h : parsePattern pat = some (op, reg)) : (findRoot op).isSome := by
  unfold parsePattern at h
  dsimp only [] at h
  split at h
  · rcases Option.map_eq_some'.mp h with ⟨p, hp, hpe⟩
    have hw := (parser_wf _).1 _ p.1 p.2 hp
    have hope : op = p.1 := by
      simp at hpe
      exact hpe.1.symm
    rw [hope]
    exact findRoot_isSome _ hw.1 hw.2
  · split at h
    · rcases Option.map_eq_some'.mp h with ⟨p, hp, hpe⟩
      have hw := (parser_wf _).2.1 _ p.1 p.2 hp
      have hope : op = p.1 := by
        simp at hpe
        exact hpe.1.symm
      rw [hope]
      exact findRoot_isSome _ hw.1 hw.2
    · exact absurd h (by simp)

theorem parse_implies_root_witness :
    (findRoot (Op.array (Op.collect 0 0) (some 0) false)).isSome :=
  parse_implies_root "[*]" (.array (.collect 0 0) (some 0) false) [1] (by rfl)

/-! ### Claim C10 -/

theorem skipWs_all_ws (cs : List Char) (h : ∀ c ∈ cs, c.toNat ∈ wsVals) :
    skipWs cs = [] := by
  induction cs with
  | nil => rfl
  | cons c cs ih =>
    rw [skipWs]
    simp [h c (by simp), ih (fun x hx => h x (by simp [hx]))]

theorem skipValue_nil (f : Nat) : skipValue f [] = none := by
  cases f with
  | zero => rfl
  | succ f => simp [skipValue, peekTok, eofTok, isLiteral]

theorem runOp_array_nil (f : Nat) (next : Op) (tb : Option Nat) (rt : Bool)
    (tables : List Table) (out : List String) :
    runOp f (.array next tb rt) ⟨[], tables, out⟩ = none := by
  cases f with
  | zero => rfl
  | succ f => simp [runOp, peekTok, eofTok, skipValue_nil]

theorem runOp_object_nil (f : Nat) (props : List (String × Op)) (tb : Option Nat) (rt : Bool)
    (tables : List Table) (out : List String) :
    runOp f (.object props tb rt) ⟨[], tables, out⟩ = none := by
  cases f with
  | zero => rfl
  | succ f => simp [runOp, peekTok, eofTok, skipValue_nil]

/-- Claim C10: an input stream holding zero top-level values (empty or
whitespace only, which the lexer turns into an empty token stream) is a
fatal error rather than a successful run without output: the main loop
runs the top operator once before checking for Eof, and an Array or
Object top operator falls through to `skip_value`, which rejects the
Eof token. -/
theorem empty_input_fatal :
    (∀ (f : Nat) (cs : List Char), (∀ c ∈ cs, c.toNat ∈ wsVals) →
       tokenize (f + 1) cs = some []) ∧
    (∀ (f : Nat) (next : Op) (tb : Option Nat) (rt : Bool)
       (tables : List Table) (out : List String),
       runMain f (.array next tb rt) ⟨[], tables, out⟩ = none) ∧
    (∀ (f : Nat) (props : List (String × Op)) (tb : Option Nat) (rt : Bool)
       (tables : List Table) (out : List String),
       runMain f (.object props tb rt) ⟨[], tables, out⟩ = none) := by
  refine ⟨?_, ?_, ?_⟩
  · intro f cs h
    rw [tokenize]
    simp [readToken, skipWs_all_ws cs h]
  · intro f next tb rt tables out
    cases f with
    | zero => rfl
    | succ f => simp [runMain, runOp_array_nil]
  · intro f props tb rt tables out
    cases f with
    | zero => rfl
    | succ f => simp [runMain, runOp_object_nil]

theorem empty_input_fatal_witness :
    tokenize 5 " \n".toList = some [] ∧
    runMain 9 (.array (.collect 0 0) (some 0) true) ⟨[], initTables [1], []⟩ = none ∧
    runMain 9 (.object [("a", .collect 0 0)] (some 0) true) ⟨[], initTables [1], []⟩ = none := by
  have h := empty_input_fatal
  exact ⟨h.1 4 _ (by decide), h.2.1 9 _ _ _ _ _, h.2.2 9 _ _ _ _ _⟩

/-! ### Claim C4 -/

/-- The document-value grammar as consumed by the skip functions:
`DocPre 0 s r` holds when `s` begins with one syntactically valid
document value and `r` is what remains; `DocPre 1` is the interior of a
non-empty array (elements up to and including the closing bracket);
`DocPre 2` the interior of a non-empty object. -/
inductive DocPre : Nat → List Token → List Token → Prop
  | lit (t : Token) (r : List Token) : isLiteral t.type = true → DocPre 0 (t :: r) r
  | arrE (a b : Token) (r : List Token) : a.type = .beginArray → b.type = .endArray →
      DocPre 0 (a :: b :: r) r
  | arrN (a : Token) (s r : List Token) : a.type = .beginArray →
      DocPre 1 s r → DocPre 0 (a :: s) r
  | objE (a b : Token) (r : List Token) : a.type = .beginObject → b.type = .endObject →
      DocPre 0 (a :: b :: r) r
  | objN (a : Token) (s r : List Token) : a.type = .beginObject →
      DocPre 2 s r → DocPre 0 (a :: s) r
  | elemLast (s : List Token) (e : Token) (r : List Token) :
      DocPre 0 s (e :: r) → e.type = .endArray → DocPre 1 s r
  | elemCons (s : List Token) (m : Token) (s2 r : List Token) :
      DocPre 0 s (m :: s2) → m.type = .memberSep → DocPre 1 s2 r → DocPre 1 s r
  | memLast (k p : Token) (s : List Token) (e : Token) (r : List Token) :
      k.type = .string → p.type = .pairSep → DocPre 0 s (e :: r) → e.type = .endObject →
      DocPre 2 (k :: p :: s) r
  | memCons (k p : Token) (s : List Token) (m : Token) (s2 r : List Token) :
      k.type = .string → p.type = .pairSep → DocPre 0 s (m :: s2) → m.type = .memberSep →
      DocPre 2 s2 r → DocPre 2 (k :: p :: s) r

theorem docPre_value_head (s r : List Token) (h : DocPre 0 s r) :
    isLiteral (peekTok s).type = true ∨ (peekTok s).type = .beginArray ∨
      (peekTok s).type = .beginObject := by
  cases h <;> simp [peekTok, *]

theorem docPre_members_head (s r : List Token) (h : DocPre 2 s r) :
    (peekTok s).type = .string := by
  cases h <;> simp [peekTok, *]

/-- The skip function that consumes a `DocPre k` prefix: `skip_value`
for a whole value, the `skip_array` element loop for kind 1, and the
`skip_object` member loop for kind 2. -/
def skipFor : Nat → Nat → List Token → Option (List Token)
  | 0, f, s => skipValue f s
  | 1, f, s => skipArrElems f s
  | _, f, s => skipObjMembers f s

theorem skip_total (k : Nat) (s r : List Token) (h : DocPre k s r) :
    ∃ f0, ∀ f, f0 ≤ f → skipFor k f s = some r := by
  induction h with
  | lit t r hlit =>
    refine ⟨1, fun f hf => ?_⟩
    obtain ⟨g, rfl⟩ : ∃ g, f = g + 1 := ⟨f - 1, by omega⟩
    obtain ⟨ty, tx⟩ := t
    cases ty <;> simp_all [skipFor, skipValue, peekTok, isLiteral]
  | arrE a b r ha hb =>
    refine ⟨2, fun f hf => ?_⟩
    obtain ⟨g, rfl⟩ : ∃ g, f = g + 2 := ⟨f - 2, by omega⟩
    simp [skipFor, skipValue, skipArray, peekTok, ha, hb, acceptTok]
  | arrN a s r ha hs ih =>
    obtain ⟨f1, H1⟩ := ih
    refine ⟨f1 + 2, fun f hf => ?_⟩
    obtain ⟨g, rfl⟩ : ∃ g, f = g + 2 := ⟨f - 2, by omega⟩
    have hhead : (peekTok s).type ≠ .endArray := by
      cases hs with
      | elemLast s2 e r2 hv he =>
        rcases docPre_value_head _ _ hv with hl | hl | hl <;>
          · intro hcon
            rw [hcon] at hl
            simp [isLiteral] at hl
      | elemCons s2 m s3 r2 hv hm hrest =>
        rcases docPre_value_head _ _ hv with hl | hl | hl <;>
          · intro hcon
            rw [hcon] at hl
            simp [isLiteral] at hl
    have H := H1 g (by omega)
    simp only [skipFor] at H ⊢
    rw [skipValue]
    simp only [peekTok, ha, List.headD_cons]
    rw [skipArray]
    simp only [peekTok, List.headD_eq_head?] at hhead
    simp [acceptTok, peekTok, ha, hhead, H]
  | objE a b r ha hb =>
    refine ⟨2, fun f hf => ?_⟩
    obtain ⟨g, rfl⟩ : ∃ g, f = g + 2 := ⟨f - 2, by omega⟩
    simp [skipFor, skipValue, skipObject, peekTok, ha, hb, acceptTok]
  | objN a s r ha hs ih =>
    obtain ⟨f1, H1⟩ := ih
    refine ⟨f1 + 2, fun f hf => ?_⟩
    obtain ⟨g, rfl⟩ : ∃ g, f = g + 2 := ⟨f - 2, by omega⟩
    have hhead : (peekTok s).type ≠ .endObject := by
      rw [docPre_members_head _ _ hs]
      simp
    have H := H1 g (by omega)
    simp only [skipFor] at H ⊢
    rw [skipValue]
    simp only [peekTok, ha, List.headD_cons]
    rw [skipObject]
    simp only [peekTok, List.headD_eq_head?] at hhead
    simp [acceptTok, peekTok, ha, hhead, H]
  | elemLast s e r hv he ih =>
    obtain ⟨f1, H1⟩ := ih
    refine ⟨f1 + 1, fun f hf => ?_⟩
    obtain ⟨g, rfl⟩ : ∃ g, f = g + 1 := ⟨f - 1, by omega⟩
    have H := H1 g (by omega)
    simp only [skipFor] at H ⊢
    rw [skipArrElems]
    rw [H]
    simp [peekTok, he]
  | elemCons s m s2 r hv hm hrest ih1 ih2 =>
    obtain ⟨f1, H1⟩ := ih1
    obtain ⟨f2, H2⟩ := ih2
    refine ⟨max f1 f2 + 1, fun f hf => ?_⟩
    obtain ⟨g, rfl⟩ : ∃ g, f = g + 1 := ⟨f - 1, by omega⟩
    have H := H1 g (by omega)
    have H2g := H2 g (by omega)
    simp only [skipFor] at H H2g ⊢
    rw [skipArrElems]
    rw [H]
    simp [peekTok, hm, H2g]
  | memLast k p s e r hk hp hv he ih =>
    obtain ⟨f1, H1⟩ := ih
    refine ⟨f1 + 1, fun f hf => ?_⟩
    obtain ⟨g, rfl⟩ : ∃ g, f = g + 1 := ⟨f - 1, by omega⟩
    have H := H1 g (by omega)
    simp only [skipFor] at H ⊢
    rw [skipObjMembers]
    simp [acceptTok, peekTok, hk, hp, H, he]
  | memCons k p s m s2 r hk hp hv hm hrest ih1 ih2 =>
    obtain ⟨f1, H1⟩ := ih1
    obtain ⟨f2, H2⟩ := ih2
    refine ⟨max f1 f2 + 1, fun f hf => ?_⟩
    obtain ⟨g, rfl⟩ : ∃ g, f = g + 1 := ⟨f - 1, by omega⟩
    have H := H1 g (by omega)
    have H2g := H2 g (by omega)
    simp only [skipFor] at H H2g ⊢
    rw [skipObjMembers]
    simp [acceptTok, peekTok, hk, hp, H, hm, H2g]

/-- Claim C4: a syntactically valid top-level document whose shape
disagrees with the pattern's top operator (an Array operator fed a
value that does not begin an array, or an Object operator fed a value
that does not begin an object) is not an error: the runtime consumes
exactly that one value from the token stream, emits no output, and
leaves the tables untouched. -/
theorem skip_on_mismatch (s r : List Token) (h : DocPre 0 s r)
    (tables : List Table) (out : List String) :
    (∀ next tb rt, (peekTok s).type ≠ .beginArray →
       ∃ f0, ∀ f, f0 ≤ f →
         runOp f (.array next tb rt) ⟨s, tables, out⟩ = some ⟨r, tables, out⟩) ∧
    (∀ props tb rt, (peekTok s).type ≠ .beginObject →
       ∃ f0, ∀ f, f0 ≤ f →
         runOp f (.object props tb rt) ⟨s, tables, out⟩ = some ⟨r, tables, out⟩) := by
  obtain ⟨f0, H⟩ := skip_total 0 s r h
  constructor
  · intro next tb rt hne
    refine ⟨f0 + 1, fun f hf => ?_⟩
    obtain ⟨g, rfl⟩ : ∃ g, f = g + 1 := ⟨f - 1, by omega⟩
    have hsv : skipValue g s = some r := H g (by omega)
    rw [runOp]
    simp [hne, hsv]
  · intro props tb rt hne
    refine ⟨f0 + 1, fun f hf => ?_⟩
    obtain ⟨g, rfl⟩ : ∃ g, f = g + 1 := ⟨f - 1, by omega⟩
    have hsv : skipValue g s = some r := H g (by omega)
    rw [runOp]
    simp [hne, hsv]

theorem skip_on_mismatch_witness :
    DocPre 0 [{ type := .number, text := "7" }] [] ∧
    (∃ f0, ∀ f, f0 ≤ f →
       runOp f (.array (.collect 0 0) (some 0) true)
         ⟨[{ type := .number, text := "7" }], initTables [1], []⟩ =
         some ⟨[], initTables [1], []⟩) ∧
    (∃ f0, ∀ f, f0 ≤ f →
       runOp f (.object [("a", .collect 0 0)] (some 0) true)
         ⟨[{ type := .number, text := "7" }], initTables [1], []⟩ =
         some ⟨[], initTables [1], []⟩) := by
  have hdp : DocPre 0 [{ type := .number, text := "7" }] [] := DocPre.lit _ _ (by decide)
  have h := skip_on_mismatch _ _ hdp (initTables [1]) []
  exact ⟨hdp, h.1 _ _ _ (by decide), h.2 _ _ _ (by decide)⟩

/-! ### Claim C8 -/

theorem set_empty_id (l : List String) (c : Nat) (h : l.getD c "" = "") : l.set c "" = l := by
  induction l generalizing c with
  | nil => simp
  | cons x xs ih =>
    cases c with
    | zero =>
      simp only [List.getD_cons_zero] at h
      simp [List.set, h]
    | succ c =>
      simp only [List.getD_cons_succ] at h
      simp [List.set, ih c h]

/-- The token for an empty string value in the document. -/
def strEmptyTok : Token := { type := .string, text := "" }

/-- The tokens after the first element of an array of `n + 1` empty
strings: `n` repetitions of a comma and an empty string, then `]`. -/
def emptyStrTail : Nat → List Token
  | 0 => [{ type := .endArray, text := "]" }]
  | n + 1 => { type := .memberSep, text := "," } :: strEmptyTok :: emptyStrTail n

/-- The token stream of an array document holding `n` empty strings. -/
def emptyArrToks : Nat → List Token
  | 0 => [{ type := .beginArray, text := "[" }, { type := .endArray, text := "]" }]
  | n + 1 => { type := .beginArray, text := "[" } :: strEmptyTok :: emptyStrTail n

theorem emptyStr_loop (n : Nat) (out : List String) : ∀ f, 2 * n + 2 ≤ f →
    runArrLoop f (.collect 0 0) (some 0)
      ⟨strEmptyTok :: emptyStrTail n, initTables [1], out⟩ =
      some ⟨[], initTables [1], out⟩ := by
  induction n with
  | zero =>
    intro f hf
    obtain ⟨g, rfl⟩ : ∃ g, f = g + 2 := ⟨f - 2, by omega⟩
    simp [runArrLoop, runOp, peekTok, isLiteral, addValue, addRow, applyAddRow,
          modifyNth, initTables, emptyStrTail, strEmptyTok]
  | succ n ih =>
    intro f hf
    obtain ⟨g, rfl⟩ : ∃ g, f = g + 2 := ⟨f - 2, by omega⟩
    have H := ih (g + 1) (by omega)
    simp [runArrLoop, runOp, peekTok, isLiteral, addValue, addRow, applyAddRow,
          modifyNth, initTables, emptyStrTail, strEmptyTok] at H ⊢
    exact H

theorem emptyStr_runMain (n : Nat) (out : List String) : ∀ f, 2 * n + 6 ≤ f →
    runMain f (.array (.collect 0 0) (some 0) true)
      ⟨emptyArrToks n, initTables [1], out⟩ =
      some ⟨[], initTables [1], out⟩ := by
  intro f hf
  obtain ⟨g, rfl⟩ : ∃ g, f = g + 3 := ⟨f - 3, by omega⟩
  cases n with
  | zero =>
    simp [runMain, runOp, peekTok, eofTok, emptyArrToks, applyAddRow, modifyNth,
          addRow, initTables, flushTables]
  | succ n =>
    have H := emptyStr_loop n out (g + 1) (by omega)
    simp [strEmptyTok, initTables] at H
    simp [runMain, runOp, peekTok, eofTok, emptyArrToks, strEmptyTok, applyAddRow,
          modifyNth, addRow, initTables, flushTables, H]

/-- Claim C8: collecting a string whose lexeme is empty leaves the
target cell empty, indistinguishable from never having been assigned:
`add_value` with an empty value on an already-empty cell is the
identity; and for pattern `[*]` (whose compiled, rooted operator and
tokenized input are pinned by the middle conjuncts), an input array
all of whose elements are the empty string produces no output lines,
every pending row being discarded as all-empty. -/
theorem empty_string_collect :
    (∀ (t : Table) (c : Nat), t.newrow.getD c "" = "" → addValue t c "" = t) ∧
    parsePattern "[*]" = some (.array (.collect 0 0) (some 0) false, [1]) ∧
    findRoot (.array (.collect 0 0) (some 0) false) =
      some (.array (.collect 0 0) (some 0) true) ∧
    tokenize 20 "[\"\",\"\"]".toList = some (emptyArrToks 2) ∧
    (∀ (n f : Nat) (out : List String), 2 * n + 6 ≤ f →
       runMain f (.array (.collect 0 0) (some 0) true)
         ⟨emptyArrToks n, initTables [1], out⟩ =
         some ⟨[], initTables [1], out⟩) := by
  refine ⟨?_, rfl, rfl, rfl, fun n f out hf => emptyStr_runMain n out f hf⟩
  intro t c h
  cases t with
  | mk nc rows newrow =>
    simp only [addValue]
    simp [set_empty_id newrow c h]

theorem empty_string_collect_witness :
    addValue ⟨1, [], [""]⟩ 0 "" = ⟨1, [], [""]⟩ ∧
    runMain 10 (.array (.collect 0 0) (some 0) true)
      ⟨emptyArrToks 2, initTables [1], []⟩ = some ⟨[], initTables [1], []⟩ := by
  have h := empty_string_collect
  exact ⟨h.1 ⟨1, [], [""]⟩ 0 (by decide), h.2.2.2.2 2 10 [] (by omega)⟩
